import Mathlib

/-!
# Verification of the CQ-code core (`src/tags.ts`)

A shallow embedding of the CQ-code encoder/decoder: the escaper
(`CQ.escape` / `CQ.unescape`), the tag data model (`CQTag`, `CQText`),
the tokenizer (`String.split` on the `SPLIT` regex), the tag-token
parser (`CQ_TAG_REGEXP`) and the message parser (`CQ.parse`).

JavaScript strings are modelled as `List Char` (`Str`).  JavaScript
attribute values are modelled by the closed variant type `JVal`
(string, integer number, boolean, `null`, `undefined`); JavaScript
objects by insertion-ordered association lists (`Obj`) whose operations
(`objSet`, `objGet`, `objAssign`, `fromEntries`) follow the ECMAScript
ordinary-object semantics for non-integer-like string keys: a property
write on an existing key updates the value in place, a write on a fresh
key appends it, and enumeration follows insertion order.
-/

/-- JavaScript strings, modelled as lists of characters. -/
abbrev Str := List Char

/-- Model of `String.prototype.replace(/pat/g, repl)` for a literal (regex-metacharacter
free) pattern `p` and a `$`-free replacement `r`: scan left to right; on a
match emit `r` and resume after the matched occurrence (replaced text is not
rescanned); otherwise emit the character and advance by one. -/
def jsReplaceAll (p r : Str) : Str → Str
  | [] => []
  | c :: t =>
    if h : p ≠ [] ∧ p.isPrefixOf (c :: t) then
      r ++ jsReplaceAll p r ((c :: t).drop p.length)
    else
      c :: jsReplaceAll p r t
termination_by s => s.length
decreasing_by
  · simp only [List.length_drop]
    have hp : 0 < p.length := List.length_pos.mpr h.1
    simp [List.length_cons]
    omega
  · simp [List.length_cons]

/-- The entity `&amp;`. -/
def AMP : Str := "&amp;".toList
/-- The entity `&#91;`. -/
def B91 : Str := "&#91;".toList
/-- The entity `&#93;`. -/
def B93 : Str := "&#93;".toList
/-- The entity `&#44;`. -/
def B44 : Str := "&#44;".toList

/-- Model of `CQ.escape(str, insideCQ)` — the four sequential global replacements of
the source, in source order: `&`, then `[`, then `]`, then (only when
`insideCQ`) `,`. -/
def escape (s : Str) (insideCQ : Bool) : Str :=
  let t1 := jsReplaceAll ['&'] AMP s
  let t2 := jsReplaceAll ['['] B91 t1
  let t3 := jsReplaceAll [']'] B93 t2
  if insideCQ then jsReplaceAll [','] B44 t3 else t3

/-- Model of `CQ.unescape(str)` — the four sequential global replacements of the
source, in source order: `&#44;`, then `&#91;`, then `&#93;`, then `&amp;`. -/
def unescape (s : Str) : Str :=
  jsReplaceAll AMP ['&']
    (jsReplaceAll B93 [']']
      (jsReplaceAll B91 ['[']
        (jsReplaceAll B44 [','] s)))

/-! ## Character-level characterization of `escape` -/

/-- The per-character effect of the four escape replacements combined
(comma rule only when `insideCQ`). -/
def escChar (insideCQ : Bool) (c : Char) : Str :=
  if c = '&' then AMP
  else if c = '[' then B91
  else if c = ']' then B93
  else if insideCQ = true ∧ c = ',' then B44
  else [c]

/-- Replacement of a single-character pattern is a character-wise flat map. -/
theorem jsReplaceAll_single (a : Char) (r : Str) :
    ∀ s : Str, jsReplaceAll [a] r s = s.flatMap (fun c => if c = a then r else [c]) := by
  intro s
  induction s with
  | nil => simp [jsReplaceAll]
  | cons c t ih =>
    by_cases hc : c = a
    · subst hc
      rw [jsReplaceAll]
      simp [List.isPrefixOf, ih]
    · rw [jsReplaceAll]
      simp [List.isPrefixOf, hc, Ne.symm hc, ih]

/-- Pointwise-equal functions give equal flat maps. -/
theorem flatMap_congr_fun {f g : Char → Str} (h : ∀ c, f c = g c) :
    ∀ s : Str, s.flatMap f = s.flatMap g := by
  intro s
  induction s with
  | nil => rfl
  | cons c t ih => simp only [List.flatMap_cons, h, ih]

/-- The function `escape` is the character-wise flat map of `escChar`: the later
replacement patterns (`[`, `]`, `,`) never occur inside the replacement
strings introduced by the earlier rules, so the sequential replacements
combine per character. -/
theorem escape_eq_flatMap (inside : Bool) (s : Str) :
    escape s inside = s.flatMap (escChar inside) := by
  cases inside with
  | false =>
    simp only [escape, if_neg (by simp : ¬(false = true))]
    rw [jsReplaceAll_single, jsReplaceAll_single, jsReplaceAll_single,
      List.flatMap_assoc, List.flatMap_assoc]
    apply flatMap_congr_fun
    intro c
    by_cases h1 : c = '&'
    · subst h1; decide
    by_cases h2 : c = '['
    · subst h2; decide
    by_cases h3 : c = ']'
    · subst h3; decide
    simp [escChar, h1, h2, h3]
  | true =>
    simp only [escape, if_pos rfl]
    rw [jsReplaceAll_single, jsReplaceAll_single, jsReplaceAll_single, jsReplaceAll_single,
      List.flatMap_assoc, List.flatMap_assoc, List.flatMap_assoc]
    apply flatMap_congr_fun
    intro c
    by_cases h1 : c = '&'
    · subst h1; decide
    by_cases h2 : c = '['
    · subst h2; decide
    by_cases h3 : c = ']'
    · subst h3; decide
    by_cases h4 : c = ','
    · subst h4; decide
    simp [escChar, h1, h2, h3, h4]

/-! ## The four `unescape` stages undo `escape` block by block -/

/-- After restoring commas: the per-character image with the comma rule undone. -/
def escChar2 (c : Char) : Str :=
  if c = '&' then AMP else if c = '[' then B91 else if c = ']' then B93 else [c]

/-- After restoring commas and `[`. -/
def escChar3 (c : Char) : Str :=
  if c = '&' then AMP else if c = ']' then B93 else [c]

/-- After restoring commas, `[` and `]`. -/
def escChar4 (c : Char) : Str :=
  if c = '&' then AMP else [c]

/-- A pattern whose head differs from the first character does not match there. -/
theorem isPrefixOf_cons_ne (p0 : Char) (p' : Str) (c : Char) (u : Str) (h : p0 ≠ c) :
    (p0 :: p').isPrefixOf (c :: u) = false := by
  simp [List.isPrefixOf, h]

/-- Replacement leaves a non-matching position unchanged. -/
theorem jsReplaceAll_cons_of_not_prefixOf (p r : Str) (c : Char) (u : Str)
    (h : p.isPrefixOf (c :: u) = false) :
    jsReplaceAll p r (c :: u) = c :: jsReplaceAll p r u := by
  rw [jsReplaceAll, dif_neg]
  simp [h]

/-- Replacement rewrites a match at the current position and resumes after it. -/
theorem jsReplaceAll_self_append (p r u : Str) (hp : p ≠ []) :
    jsReplaceAll p r (p ++ u) = r ++ jsReplaceAll p r u := by
  cases p with
  | nil => exact absurd rfl hp
  | cons p0 p' =>
    have hpre : (p0 :: p').isPrefixOf ((p0 :: p') ++ u) = true := by
      clear hp
      induction p' generalizing p0 with
      | nil => simp [List.isPrefixOf]
      | cons q q' ih => simp [List.isPrefixOf, ih]
    rw [List.cons_append, jsReplaceAll, dif_pos ⟨by simp, hpre⟩,
      ← List.cons_append, List.drop_left]

/-- The entity block `&amp;` is transparent to replacement of `&#44;`. -/
theorem skip_AMP_B44 (u : Str) :
    jsReplaceAll B44 [','] (AMP ++ u) = AMP ++ jsReplaceAll B44 [','] u := by
  simp [AMP, B44, jsReplaceAll, List.isPrefixOf]

/-- The entity block `&#91;` is transparent to replacement of `&#44;`. -/
theorem skip_B91_B44 (u : Str) :
    jsReplaceAll B44 [','] (B91 ++ u) = B91 ++ jsReplaceAll B44 [','] u := by
  simp [B91, B44, jsReplaceAll, List.isPrefixOf]

/-- The entity block `&#93;` is transparent to replacement of `&#44;`. -/
theorem skip_B93_B44 (u : Str) :
    jsReplaceAll B44 [','] (B93 ++ u) = B93 ++ jsReplaceAll B44 [','] u := by
  simp [B93, B44, jsReplaceAll, List.isPrefixOf]

/-- The entity block `&amp;` is transparent to replacement of `&#91;`. -/
theorem skip_AMP_B91 (u : Str) :
    jsReplaceAll B91 ['['] (AMP ++ u) = AMP ++ jsReplaceAll B91 ['['] u := by
  simp [AMP, B91, jsReplaceAll, List.isPrefixOf]

/-- The entity block `&#93;` is transparent to replacement of `&#91;`. -/
theorem skip_B93_B91 (u : Str) :
    jsReplaceAll B91 ['['] (B93 ++ u) = B93 ++ jsReplaceAll B91 ['['] u := by
  simp [B93, B91, jsReplaceAll, List.isPrefixOf]

/-- The entity block `&amp;` is transparent to replacement of `&#93;`. -/
theorem skip_AMP_B93 (u : Str) :
    jsReplaceAll B93 [']'] (AMP ++ u) = AMP ++ jsReplaceAll B93 [']'] u := by
  simp [AMP, B93, jsReplaceAll, List.isPrefixOf]

/-- All four entity patterns begin with `&`, so they never match at a
position holding any other character. -/
theorem entity_not_prefixOf (p : Str) (hp : p.head? = some '&') (c : Char) (u : Str)
    (h : c ≠ '&') : p.isPrefixOf (c :: u) = false := by
  cases p with
  | nil => simp at hp
  | cons p0 p' =>
    simp only [List.head?_cons, Option.some.injEq] at hp
    subst hp
    exact isPrefixOf_cons_ne _ _ _ _ (Ne.symm h)

/-- Stage 1 of `unescape` (`&#44;` to `,`) maps the escaped image of `s`
to the image under `escChar2`. -/
theorem unescape_stage1 (inside : Bool) : ∀ s : Str,
    jsReplaceAll B44 [','] (s.flatMap (escChar inside)) = s.flatMap escChar2 := by
  intro s
  induction s with
  | nil => simp [jsReplaceAll]
  | cons c t ih =>
    rw [List.flatMap_cons, List.flatMap_cons]
    by_cases h1 : c = '&'
    · subst h1
      rw [show escChar inside '&' = AMP from by simp [escChar],
        show escChar2 '&' = AMP from by simp [escChar2], skip_AMP_B44, ih]
    by_cases h2 : c = '['
    · subst h2
      rw [show escChar inside '[' = B91 from by simp [escChar],
        show escChar2 '[' = B91 from by simp [escChar2], skip_B91_B44, ih]
    by_cases h3 : c = ']'
    · subst h3
      rw [show escChar inside ']' = B93 from by simp [escChar],
        show escChar2 ']' = B93 from by simp [escChar2], skip_B93_B44, ih]
    by_cases h4 : inside = true ∧ c = ','
    · obtain ⟨hi, hc⟩ := h4
      subst hc
      subst hi
      rw [show escChar true ',' = B44 from by simp [escChar],
        show escChar2 ',' = [','] from by simp [escChar2],
        jsReplaceAll_self_append _ _ _ (by simp [B44]), ih]
    · rw [show escChar inside c = [c] from by simp [escChar, h1, h2, h3, h4],
        show escChar2 c = [c] from by simp [escChar2, h1, h2, h3],
        List.singleton_append,
        jsReplaceAll_cons_of_not_prefixOf _ _ _ _ (entity_not_prefixOf B44 (by decide) _ _ h1), ih]
      rfl

/-- Stage 2 of `unescape` (`&#91;` to `[`). -/
theorem unescape_stage2 : ∀ s : Str,
    jsReplaceAll B91 ['['] (s.flatMap escChar2) = s.flatMap escChar3 := by
  intro s
  induction s with
  | nil => simp [jsReplaceAll]
  | cons c t ih =>
    rw [List.flatMap_cons, List.flatMap_cons]
    by_cases h1 : c = '&'
    · subst h1
      rw [show escChar2 '&' = AMP from by simp [escChar2],
        show escChar3 '&' = AMP from by simp [escChar3], skip_AMP_B91, ih]
    by_cases h2 : c = '['
    · subst h2
      rw [show escChar2 '[' = B91 from by simp [escChar2],
        show escChar3 '[' = ['['] from by simp [escChar3],
        jsReplaceAll_self_append _ _ _ (by simp [B91]), ih]
    by_cases h3 : c = ']'
    · subst h3
      rw [show escChar2 ']' = B93 from by simp [escChar2],
        show escChar3 ']' = B93 from by simp [escChar3], skip_B93_B91, ih]
    · rw [show escChar2 c = [c] from by simp [escChar2, h1, h2, h3],
        show escChar3 c = [c] from by simp [escChar3, h1, h3],
        List.singleton_append,
        jsReplaceAll_cons_of_not_prefixOf _ _ _ _ (entity_not_prefixOf B91 (by decide) _ _ h1), ih]
      rfl

/-- Stage 3 of `unescape` (`&#93;` to `]`). -/
theorem unescape_stage3 : ∀ s : Str,
    jsReplaceAll B93 [']'] (s.flatMap escChar3) = s.flatMap escChar4 := by
  intro s
  induction s with
  | nil => simp [jsReplaceAll]
  | cons c t ih =>
    rw [List.flatMap_cons, List.flatMap_cons]
    by_cases h1 : c = '&'
    · subst h1
      rw [show escChar3 '&' = AMP from by simp [escChar3],
        show escChar4 '&' = AMP from by simp [escChar4], skip_AMP_B93, ih]
    by_cases h3 : c = ']'
    · subst h3
      rw [show escChar3 ']' = B93 from by simp [escChar3],
        show escChar4 ']' = [']'] from by simp [escChar4],
        jsReplaceAll_self_append _ _ _ (by simp [B93]), ih]
    · rw [show escChar3 c = [c] from by simp [escChar3, h1, h3],
        show escChar4 c = [c] from by simp [escChar4, h1],
        List.singleton_append,
        jsReplaceAll_cons_of_not_prefixOf _ _ _ _ (entity_not_prefixOf B93 (by decide) _ _ h1), ih]
      rfl

/-- Stage 4 of `unescape` (`&amp;` to `&`) recovers the original string. -/
theorem unescape_stage4 : ∀ s : Str,
    jsReplaceAll AMP ['&'] (s.flatMap escChar4) = s := by
  intro s
  induction s with
  | nil => simp [jsReplaceAll]
  | cons c t ih =>
    rw [List.flatMap_cons]
    by_cases h1 : c = '&'
    · subst h1
      rw [show escChar4 '&' = AMP from by simp [escChar4],
        jsReplaceAll_self_append _ _ _ (by simp [AMP]), ih]
      rfl
    · rw [show escChar4 c = [c] from by simp [escChar4, h1],
        List.singleton_append,
        jsReplaceAll_cons_of_not_prefixOf _ _ _ _ (entity_not_prefixOf AMP (by decide) _ _ h1), ih]

/-- The function `unescape` is a full left inverse of `escape`, for every string. -/
theorem unescape_escape (inside : Bool) (s : Str) : unescape (escape s inside) = s := by
  rw [escape_eq_flatMap, unescape, unescape_stage1, unescape_stage2, unescape_stage3,
    unescape_stage4]

/-- Boolean substring containment: does `needle` occur contiguously in `hay`? -/
def containsSub (needle : Str) : Str → Bool
  | [] => needle.isPrefixOf []
  | c :: t => needle.isPrefixOf (c :: t) || containsSub needle t

/-! ## The tag data model -/

/-- JavaScript attribute values as they occur in the tag layer: strings,
(integral) numbers, booleans, `null` and `undefined`.  `undefined` is the
"absent" sentinel produced by optional factory parameters; `null` is the
explicit null value. -/
inductive JVal where
  | str (s : Str)
  | num (n : Int)
  | bool (b : Bool)
  | null
  | undef
deriving DecidableEq, Repr

/-- An insertion-ordered JavaScript object (non-integer-like string keys). -/
abbrev Obj := List (Str × JVal)

/-- A property write `o[k] = v`: an existing key keeps its position and gets
the new value; a fresh key is appended. -/
def objSet : Obj → Str → JVal → Obj
  | [], k, v => [(k, v)]
  | kv :: rest, k, v => if kv.1 = k then (k, v) :: rest else kv :: objSet rest k v

/-- A property read `o[k]`: the value at `k`, or `undefined` when absent. -/
def objGet (o : Obj) (k : Str) : JVal :=
  match o.find? (fun kv => kv.1 = k) with
  | some kv => kv.2
  | none => JVal.undef

/-- Does the object have the key? -/
def hasKey (o : Obj) (k : Str) : Bool :=
  o.any (fun kv => kv.1 = k)

/-- Model of `Object.assign(target, src)`: copy `src`'s properties into `target`
in `src`'s enumeration order. -/
def objAssign (target src : Obj) : Obj :=
  src.foldl (fun o kv => objSet o kv.1 kv.2) target

/-- Model of `Object.fromEntries(entries)`: property writes on a fresh object,
in order. -/
def fromEntries (entries : List (Str × JVal)) : Obj :=
  objAssign [] entries

/-- Decimal digits of a natural number (`Nat.repr` is the standard decimal
representation, matching JavaScript's `String(n)` for naturals). -/
def natToStr (n : Nat) : Str :=
  (Nat.repr n).toList

/-- JavaScript number-to-string for integral values (`String(n)`). -/
def intToStr (n : Int) : Str :=
  if n < 0 then '-' :: natToStr n.natAbs else natToStr n.toNat

/-- JavaScript string coercion `${v}` of an attribute value. -/
def jvalToStr : JVal → Str
  | JVal.str s => s
  | JVal.num n => intToStr n
  | JVal.bool true => "true".toList
  | JVal.bool false => "false".toList
  | JVal.null => "null".toList
  | JVal.undef => "undefined".toList

/-- The JavaScript loose test `v == null`, true exactly for `null` and
`undefined`. -/
def looseNull : JVal → Bool
  | JVal.null => true
  | JVal.undef => true
  | _ => false

/-- A `CQTag` instance: type name, immutable base attributes (`_data`),
replaceable override attributes (`_modifier`), and the dynamic-class flag
telling whether the instance was constructed as the `CQText` subclass
(which overrides `toString`). -/
structure CQTag where
  _type : Str
  _data : Obj
  _modifier : Obj
  isCQText : Bool
deriving DecidableEq, Repr

/-- The `CQText` constructor: `super("text", {text})`. -/
def mkCQText (text : Str) : CQTag :=
  ⟨"text".toList, [("text".toList, JVal.str text)], [], true⟩

/-- The generic `new CQTag(type, data)` constructor. -/
def mkCQTag (type : Str) (data : Obj) : CQTag :=
  ⟨type, data, [], false⟩

/-- Model of `tag.modifier(m)`: wholesale replacement of the override mapping
(the source mutates `this._modifier` and returns `this`). -/
def CQTag.modifier (t : CQTag) (m : Obj) : CQTag :=
  { t with _modifier := m }

/-- The overlaid mapping `Object.assign({}, this._data, this._modifier)`
built by both serialization paths. -/
def CQTag.overlay (t : CQTag) : Obj :=
  objAssign (objAssign [] t._data) t._modifier

/-- Model of `CQTag.prototype.toString`, including the `CQText` override.  The
generic path starts from `"[CQ:" + type`, appends `,k=v` for every overlaid
entry whose value is not `undefined` (the `forEach` with its
`v !== undefined` guard), then appends `"]"`.  The `CQText` override
returns `this._data.text` directly. -/
def CQTag.toStr (t : CQTag) : Str :=
  if t.isCQText then
    jvalToStr (objGet t._data "text".toList)
  else
    (t.overlay.foldl
      (fun ret kv => if kv.2 = JVal.undef then ret else ret ++ ',' :: kv.1 ++ '=' :: jvalToStr kv.2)
      ("[CQ:".toList ++ t._type)) ++ "]".toList

/-- The structured form `{type, data}`. -/
structure TagPlain where
  type : Str
  data : Obj
deriving DecidableEq, Repr

/-- Model of `CQTag.prototype.toTag` as a state-explicit call: the method builds the
overlaid mapping in a fresh object (`Object.assign({}, ...)`), deletes the
entries whose value passes the loose `v == null` test from that fresh copy
only, and returns `{type, data}`; no statement of the method writes any
field of `this`, so the receiver after the call is returned unchanged. -/
def CQTag.toTagSt (t : CQTag) : TagPlain × CQTag :=
  let data0 := objAssign (objAssign [] t._data) t._modifier
  let data1 := data0.filter (fun kv => !(looseNull kv.2))
  (⟨t._type, data1⟩, t)

/-- Model of `CQTag.prototype.toTag`, result only. -/
def CQTag.toTag (t : CQTag) : TagPlain :=
  (t.toTagSt).1

/-- Model of `toString` as a state-explicit call: the method reads `this` and writes
only the local `ret` and the fresh `Object.assign` result, so the receiver
after the call is returned unchanged. -/
def CQTag.toStringSt (t : CQTag) : Str × CQTag :=
  (t.toStr, t)

/-! ## Tokenizer: `msg.split(/(?=\[CQ:)|(?<=])/)` -/

/-- The literal `[CQ:` looked ahead for by the `SPLIT` regex. -/
def cqMark : Str := "[CQ:".toList

/-- The scan of `String.prototype.split` with the zero-width `SPLIT` regex
`(?=\[CQ:)|(?<=])`: walk the string accumulating the current token `cur`;
at each position after the token start (ES never splits at the start of the
current segment, since an empty match there has `e = p`), the regex matches
exactly when the remaining input starts with `[CQ:` or the previous
character is `]`; a match ends the current token there. -/
def splitGo (cur : Str) : Str → List Str
  | [] => [cur]
  | c :: t =>
    if cur ≠ [] ∧ (cqMark.isPrefixOf (c :: t) ∨ cur.getLast? = some ']') then
      cur :: splitGo [c] t
    else
      splitGo (cur ++ [c]) t

/-- Model of `msg.split(SPLIT)`.  On the empty string the ES split algorithm returns
`[""]` (the regex does not match the empty string: the lookahead needs four
characters and the lookbehind needs a preceding one), which is also what
`splitGo [] []` yields. -/
def tokenize (msg : Str) : List Str :=
  splitGo [] msg

/-! ## Tag-token parser: `CQ_TAG_REGEXP.exec` -/

/-- Is `c` an ASCII lowercase letter (the regex class `[a-z]`)? -/
def isLowerAZ (c : Char) : Bool :=
  'a' ≤ c ∧ c ≤ 'z'

/-- Model of `CQ_TAG_REGEXP.exec(tagStr)` for
`/^\[CQ:([a-z]+)(?:,([^\]]+))?]$/`: `none` when the token does not match,
otherwise the type-name capture and the optional attribute capture.
After the mandatory `[CQ:` the greedy `[a-z]+` takes the maximal lowercase
run (no backtracking can help, since the character after the group must be
`,` or `]`, neither lowercase); then either the final `]` immediately ends
the string, or a `,` is followed by one or more non-`]` characters and the
final `]` ends the string. -/
def matchCQ (s : Str) : Option (Str × Option Str) :=
  if cqMark.isPrefixOf s then
    let rest := s.drop 4
    let name := rest.takeWhile isLowerAZ
    let rest2 := rest.dropWhile isLowerAZ
    if name = [] then none
    else
      match rest2 with
      | [']'] => some (name, none)
      | ',' :: rest3 =>
        if rest3.getLast? = some ']' ∧ rest3.dropLast ≠ [] ∧ ¬ ']' ∈ rest3.dropLast then
          some (name, some rest3.dropLast)
        else none
      | _ => none
  else none

/-- Model of `v.indexOf("=")` followed by `v.substr(0, index)` / `v.substr(index + 1)`:
at the first `=` the piece splits into key and value (later `=` stay in the
value); when there is no `=`, `index` is `-1`, so `substr(0, -1)` gives the
empty key and `substr(0)` gives the whole piece as value. -/
def splitEq (v : Str) : Str × Str :=
  match v.findIdx? (fun c => c = '=') with
  | some i => (v.take i, v.drop (i + 1))
  | none => ([], v)

/-- The per-token body of `CQ.parse`: a non-matching token becomes a
`CQText`; a match without attribute capture becomes a tag with empty base;
otherwise the capture is split on `,`, each piece on its first `=`, and the
pairs are collected with `Object.fromEntries`. -/
def parseToken (tagStr : Str) : CQTag :=
  match matchCQ tagStr with
  | none => mkCQText tagStr
  | some (tagName, none) => mkCQTag tagName []
  | some (tagName, some value) =>
    mkCQTag tagName
      (fromEntries ((value.splitOn ',').map (fun v => ((splitEq v).1, JVal.str (splitEq v).2))))

/-- Model of `CQ.parse(msg)`: tokenize, then parse every token. -/
def CQparse (msg : Str) : List CQTag :=
  (tokenize msg).map parseToken

/-! ## Reference tokenizer: cut exactly at the regex's match positions -/

/-- Does the zero-width `SPLIT` regex match at position `q` of `s`?  It does
exactly when the remaining input at `q` starts with `[CQ:` (the lookahead)
or the character before `q` is `]` (the lookbehind). -/
def cutCond (s : Str) (q : Nat) : Bool :=
  cqMark.isPrefixOf (s.drop q) || ((s.take q).getLast? == some ']')

/-- The earliest admissible cut position of `s`: positions `0 < q < s.length`
where the regex matches (ES `split` never cuts at the segment start nor at
the very end of the string, because an empty match there has `e = p`
respectively is never tested). -/
def firstCut (s : Str) : Option Nat :=
  (List.range s.length).find? (fun q => decide (0 < q) && cutCond s q)

/-- The tokenizer as the spec's boundary rule words it: repeatedly cut at
the earliest position where the `SPLIT` regex matches. -/
def refTokenize (s : Str) : List Str :=
  match h : firstCut s with
  | none => [s]
  | some q => s.take q :: refTokenize (s.drop q)
termination_by s.length
decreasing_by
  have h1 := List.find?_some h
  have h3 := List.mem_range.mp (List.mem_of_find?_eq_some h)
  simp only [Bool.and_eq_true, decide_eq_true_eq] at h1
  simp only [List.length_drop]
  omega

/-- Searching with `find?` over `range n` returns the least witness. -/
theorem find?_range_eq_some {p : Nat → Bool} {n m : Nat} (hmn : m < n) (hm : p m = true)
    (hlt : ∀ k, k < m → p k = false) : (List.range n).find? p = some m := by
  obtain ⟨j, rfl⟩ : ∃ j, n = (m + 1) + j := ⟨n - (m + 1), by omega⟩
  rw [List.range_add, List.find?_append, List.range_succ, List.find?_append]
  have h1 : (List.range m).find? p = none :=
    List.find?_eq_none.mpr (fun x hx => by simp [hlt x (List.mem_range.mp hx)])
  rw [h1]
  simp [List.find?_cons, hm]

/-- During the `splitGo` scan no admissible cut lies strictly inside the
current token, so the next reference cut is exactly where `splitGo` cuts. -/
theorem refTokenize_eq_splitGo : ∀ (rest cur : Str), cur ≠ [] →
    (∀ j, j < cur.length → (decide (0 < j) && cutCond (cur ++ rest) j) = false) →
    refTokenize (cur ++ rest) = splitGo cur rest := by
  intro rest
  induction rest with
  | nil =>
    intro cur hcur inv
    simp only [List.append_nil] at inv ⊢
    rw [splitGo, refTokenize]
    have hfc : firstCut cur = none :=
      List.find?_eq_none.mpr (fun q hq => by simp [inv q (List.mem_range.mp hq)])
    split
    · rfl
    · rename_i q hq
      rw [hfc] at hq
      cases hq
  | cons c t ih =>
    intro cur hcur inv
    by_cases B : cqMark.isPrefixOf (c :: t) = true ∨ cur.getLast? = some ']'
    · rw [splitGo, if_pos ⟨hcur, B⟩]
      have hpos : 0 < cur.length := List.length_pos.mpr hcur
      have hfc : firstCut (cur ++ c :: t) = some cur.length := by
        apply find?_range_eq_some
        · simp
        · simp only [Bool.and_eq_true, decide_eq_true_eq]
          refine ⟨hpos, ?_⟩
          rw [cutCond, List.drop_left, List.take_left]
          rcases B with hB | hB
          · simp [hB]
          · simp [hB]
        · intro k hk
          exact inv k hk
      rw [refTokenize]
      split
      · rename_i hq
        rw [hfc] at hq
        cases hq
      · rename_i q hq
        rw [hfc] at hq
        injection hq with hq
        subst hq
        rw [List.take_left, List.drop_left]
        congr 1
        refine ih [c] (by simp) ?_
        intro j hj
        simp only [List.length_cons, List.length_nil] at hj
        have hj0 : j = 0 := by omega
        subst hj0
        simp
    · rw [splitGo, if_neg (by
        intro hcon
        exact B hcon.2)]
      have : cur ++ c :: t = (cur ++ [c]) ++ t := by simp
      rw [this, ih (cur ++ [c]) (by simp)]
      intro j hj
      simp only [List.length_append, List.length_cons, List.length_nil] at hj
      by_cases hj2 : j < cur.length
      · have := inv j hj2
        rw [← this]
        congr 1
        simp
      · have hj3 : j = cur.length := by omega
        subst hj3
        push_neg at B
        have harr : (cur ++ [c]) ++ t = cur ++ c :: t := by simp
        rw [harr]
        simp only [cutCond, List.drop_left, List.take_left]
        simp [B.1, B.2]

/-- The source tokenizer equals the reference tokenizer: its token
boundaries are exactly the positions where `[CQ:` starts or the previous
character is `]`. -/
theorem tokenize_eq_refTokenize (s : Str) : tokenize s = refTokenize s := by
  cases s with
  | nil =>
    rw [tokenize, splitGo, refTokenize]
    split
    · rfl
    · rename_i q hq
      rw [show firstCut [] = none from rfl] at hq
      cases hq
  | cons c t =>
    rw [tokenize, splitGo, if_neg (by intro hcon; exact hcon.1 rfl)]
    have : (c :: t : Str) = [c] ++ t := rfl
    rw [List.nil_append, this]
    refine (refTokenize_eq_splitGo t [c] (by simp) ?_).symm
    intro j hj
    simp only [List.length_cons, List.length_nil] at hj
    have hj0 : j = 0 := by omega
    subst hj0
    simp

/-- The tokens of `splitGo`, concatenated, are the scanned string. -/
theorem splitGo_flatten : ∀ (rest cur : Str), (splitGo cur rest).flatten = cur ++ rest := by
  intro rest
  induction rest with
  | nil => intro cur; simp [splitGo]
  | cons c t ih =>
    intro cur
    rw [splitGo]
    by_cases hc : cur ≠ [] ∧ (cqMark.isPrefixOf (c :: t) ∨ cur.getLast? = some ']')
    · rw [if_pos hc]
      simp only [List.flatten_cons, ih [c]]
      simp
    · rw [if_neg hc]
      rw [ih (cur ++ [c])]
      simp

/-! ## Object semantics lemmas -/

/-- The keys of an object are pairwise distinct (always true of a real
JavaScript object; our association lists are freer, so it is a hypothesis). -/
abbrev nodupKeys (o : Obj) : Prop :=
  (o.map Prod.fst).Nodup

/-- Writing a fresh key appends it. -/
theorem objSet_of_not_hasKey (o : Obj) (k : Str) (v : JVal) (h : hasKey o k = false) :
    objSet o k v = o ++ [(k, v)] := by
  induction o with
  | nil => rfl
  | cons kv rest ih =>
    simp only [hasKey, List.any_cons, Bool.or_eq_false_iff, decide_eq_false_iff_not] at h
    rw [objSet, if_neg h.1, ih (by simp [hasKey, h.2])]
    rfl

/-- Reading the key just written. -/
theorem objGet_objSet_same (o : Obj) (k : Str) (v : JVal) :
    objGet (objSet o k v) k = v := by
  induction o with
  | nil => simp [objSet, objGet, List.find?]
  | cons kv rest ih =>
    rw [objSet]
    by_cases hk : kv.1 = k
    · rw [if_pos hk]
      simp [objGet, List.find?]
    · rw [if_neg hk]
      simp only [objGet, List.find?] at ih ⊢
      rw [show (decide (kv.1 = k)) = false by simp [hk]]
      exact ih

/-- Reading another key after a write. -/
theorem objGet_objSet_ne (o : Obj) (k k' : Str) (v : JVal) (h : k' ≠ k) :
    objGet (objSet o k v) k' = objGet o k' := by
  induction o with
  | nil => simp [objSet, objGet, List.find?, Ne.symm h]
  | cons kv rest ih =>
    rw [objSet]
    by_cases hk : kv.1 = k
    · rw [if_pos hk]
      simp only [objGet, List.find?]
      rw [show (decide (k = k')) = false by simp [Ne.symm h],
        show (decide (kv.1 = k')) = false by simp [hk ▸ Ne.symm h]]
    · rw [if_neg hk]
      simp only [objGet, List.find?] at ih ⊢
      by_cases hk' : kv.1 = k'
      · rw [show (decide (kv.1 = k')) = true by simp [hk']]
      · rw [show (decide (kv.1 = k')) = false by simp [hk']]
        exact ih

/-- Key presence after a write. -/
theorem hasKey_objSet (o : Obj) (k k' : Str) (v : JVal) :
    hasKey (objSet o k v) k' = (hasKey o k' || k' = k) := by
  induction o with
  | nil => simp [objSet, hasKey, eq_comm]
  | cons kv rest ih =>
    rw [objSet]
    by_cases hk : kv.1 = k
    · rw [if_pos hk]
      subst hk
      simp only [hasKey, List.any_cons]
      by_cases hd : kv.1 = k'
      · simp [hd]
      · simp [hd, Ne.symm hd]
    · rw [if_neg hk]
      simp only [hasKey, List.any_cons] at ih ⊢
      rw [ih]
      cases hkv : (decide (kv.1 = k')) <;> simp

/-- Key list after a write. -/
theorem keys_objSet (o : Obj) (k : Str) (v : JVal) :
    (objSet o k v).map Prod.fst =
      if hasKey o k then o.map Prod.fst else o.map Prod.fst ++ [k] := by
  induction o with
  | nil => simp [objSet, hasKey]
  | cons kv rest ih =>
    rw [objSet]
    by_cases hk : kv.1 = k
    · rw [if_pos hk, if_pos (by simp [hasKey, hk])]
      simp [hk]
    · rw [if_neg hk]
      simp only [List.map_cons, ih]
      have : hasKey (kv :: rest) k = hasKey rest k := by
        simp [hasKey, hk]
      rw [this]
      by_cases hr : hasKey rest k
      · rw [if_pos hr, if_pos (by simp [hr])]
      · rw [if_neg hr, if_neg (by simp [hr])]
        rfl

/-- Testing `hasKey` is membership in the key list. -/
theorem hasKey_eq_false_iff (o : Obj) (k : Str) :
    hasKey o k = false ↔ k ∉ o.map Prod.fst := by
  induction o with
  | nil => simp [hasKey]
  | cons kv rest ih =>
    rw [show hasKey (kv :: rest) k = ((decide (kv.1 = k)) || hasKey rest k) from rfl]
    simp only [Bool.or_eq_false_iff, decide_eq_false_iff_not, List.map_cons, List.mem_cons,
      not_or, ih]
    constructor
    · rintro ⟨h1, h2⟩
      exact ⟨fun he => h1 he.symm, h2⟩
    · rintro ⟨h1, h2⟩
      exact ⟨fun he => h1 he.symm, h2⟩

/-- Applying `objAssign` with pairwise-fresh source keys is plain concatenation. -/
theorem objAssign_append_of_disjoint : ∀ (src acc : Obj), nodupKeys src →
    (∀ kv ∈ src, hasKey acc kv.1 = false) → objAssign acc src = acc ++ src := by
  intro src
  induction src with
  | nil => intro acc _ _; simp [objAssign]
  | cons kv src' ih =>
    intro acc hnd hdisj
    have hnd2 : kv.1 ∉ src'.map Prod.fst ∧ (src'.map Prod.fst).Nodup := by
      rw [nodupKeys, List.map_cons, List.nodup_cons] at hnd
      exact hnd
    obtain ⟨hni, hnd'⟩ := hnd2
    have hnd' : nodupKeys src' := hnd'
    rw [objAssign, List.foldl_cons,
      objSet_of_not_hasKey acc kv.1 kv.2 (hdisj kv (by simp))]
    have step : objAssign (acc ++ [(kv.1, kv.2)]) src' = (acc ++ [(kv.1, kv.2)]) ++ src' := by
      apply ih _ hnd'
      intro kv' hkv'
      rw [hasKey_eq_false_iff]
      simp only [List.map_append, List.mem_append, List.map_cons, List.map_nil]
      rintro (hin | hin)
      · exact absurd hin ((hasKey_eq_false_iff acc kv'.1).mp (hdisj kv' (by simp [hkv'])))
      · simp only [List.mem_singleton] at hin
        exact hni (hin ▸ List.mem_map_of_mem Prod.fst hkv')
    rw [objAssign] at step
    rw [step]
    simp

/-- On a real (duplicate-free) object, rebuilding via property writes on a
fresh object is the identity: `Object.assign({}, o) = o`. -/
theorem objAssign_nil_of_nodup (o : Obj) (h : nodupKeys o) : objAssign [] o = o := by
  rw [objAssign_append_of_disjoint o [] h (by intro kv _; rfl)]
  rfl

/-- Lookup in an overlaid object: an override key wins, any other key falls
through to the target. -/
theorem objGet_objAssign : ∀ (src base : Obj) (k : Str), nodupKeys src →
    objGet (objAssign base src) k =
      if hasKey src k then objGet src k else objGet base k := by
  intro src
  induction src with
  | nil => intro base k _; simp [objAssign, hasKey]
  | cons kv src' ih =>
    intro base k hnd
    have hnd2 : kv.1 ∉ src'.map Prod.fst ∧ (src'.map Prod.fst).Nodup := by
      rw [nodupKeys, List.map_cons, List.nodup_cons] at hnd
      exact hnd
    obtain ⟨hni, hnd'⟩ := hnd2
    have hnd' : nodupKeys src' := hnd'
    rw [objAssign, List.foldl_cons]
    have := ih (objSet base kv.1 kv.2) k hnd'
    rw [objAssign] at this
    rw [this]
    have hcons : ∀ k' : Str,
        hasKey (kv :: src') k' = ((decide (kv.1 = k')) || hasKey src' k') := fun _ => rfl
    by_cases hmem : hasKey src' k = true
    · have hne : kv.1 ≠ k := by
        intro hkk
        have hfalse := (hasKey_eq_false_iff src' kv.1).mpr hni
        rw [hkk, hmem] at hfalse
        cases hfalse
      rw [if_pos hmem, if_pos (by rw [hcons, hmem]; simp)]
      simp only [objGet, List.find?]
      rw [show (decide (kv.1 = k)) = false by simp [hne]]
    · have hmem' : hasKey src' k = false := by
        simpa using hmem
      rw [if_neg hmem]
      by_cases hk : k = kv.1
      · subst hk
        rw [objGet_objSet_same, if_pos (by rw [hcons]; simp)]
        simp [objGet, List.find?]
      · rw [objGet_objSet_ne base kv.1 k kv.2 hk,
          if_neg (by rw [hcons, hmem']; simp [Ne.symm hk])]

/-- Enumeration order of an overlaid object: the target's keys in their
order, then the override-only keys in theirs. -/
theorem keys_objAssign : ∀ (src base : Obj), nodupKeys src →
    (objAssign base src).map Prod.fst =
      base.map Prod.fst ++ (src.map Prod.fst).filter (fun k => !(hasKey base k)) := by
  intro src
  induction src with
  | nil => intro base _; simp [objAssign]
  | cons kv src' ih =>
    intro base hnd
    have hnd2 : kv.1 ∉ src'.map Prod.fst ∧ (src'.map Prod.fst).Nodup := by
      rw [nodupKeys, List.map_cons, List.nodup_cons] at hnd
      exact hnd
    obtain ⟨hni, hnd'⟩ := hnd2
    have hnd' : nodupKeys src' := hnd'
    rw [objAssign, List.foldl_cons]
    have := ih (objSet base kv.1 kv.2) hnd'
    rw [objAssign] at this
    rw [this, keys_objSet]
    have hfilt : (src'.map Prod.fst).filter (fun k => !(hasKey (objSet base kv.1 kv.2) k)) =
        (src'.map Prod.fst).filter (fun k => !(hasKey base k)) := by
      apply List.filter_congr
      intro k hk
      rw [hasKey_objSet]
      have : (decide (k = kv.1)) = false := by
        simp only [decide_eq_false_iff_not]
        intro hkk
        exact hni (hkk ▸ hk)
      simp [this]
    rw [hfilt]
    by_cases hb : hasKey base kv.1
    · rw [if_pos hb]
      simp only [List.map_cons, List.filter_cons]
      rw [show (!(hasKey base kv.1)) = false by simp [hb]]
      simp
    · rw [if_neg hb]
      simp only [List.map_cons, List.filter_cons]
      rw [show (!(hasKey base kv.1)) = true by simp [hb]]
      simp

/-! ## Serialization characterizations -/

/-- The `toString` `forEach` loop emits, after the accumulator, exactly the
non-`undefined` entries in order. -/
theorem toStr_foldl_emit : ∀ (entries : Obj) (acc : Str),
    entries.foldl
      (fun ret kv => if kv.2 = JVal.undef then ret else ret ++ ',' :: kv.1 ++ '=' :: jvalToStr kv.2)
      acc
      = acc ++ (entries.filter (fun kv => kv.2 ≠ JVal.undef)).flatMap
          (fun kv => ',' :: kv.1 ++ '=' :: jvalToStr kv.2) := by
  intro entries
  induction entries with
  | nil => intro acc; simp
  | cons kv rest ih =>
    intro acc
    rw [List.foldl_cons]
    by_cases hu : kv.2 = JVal.undef
    · rw [if_pos hu, ih, List.filter_cons,
        show (decide (kv.2 ≠ JVal.undef)) = false by simp [hu]]
      simp
    · rw [if_neg hu, ih, List.filter_cons,
        show (decide (kv.2 ≠ JVal.undef)) = true by simp [hu]]
      simp [List.append_assoc]

/-- The generic wire-text path: prefix, the non-`undefined` overlaid entries
in order, closing bracket. -/
theorem toStr_generic_eq (t : CQTag) (h : t.isCQText = false) :
    t.toStr = "[CQ:".toList ++ t._type
      ++ (t.overlay.filter (fun kv => kv.2 ≠ JVal.undef)).flatMap
          (fun kv => ',' :: kv.1 ++ '=' :: jvalToStr kv.2)
      ++ "]".toList := by
  rw [CQTag.toStr, if_neg (by simp [h]), toStr_foldl_emit]

/-- The structured form keeps exactly the overlaid entries that are neither
`undefined` nor `null` (the loose `v == null` deletion test). -/
theorem toTag_data_eq (t : CQTag) :
    (t.toTag).data = t.overlay.filter (fun kv => kv.2 ≠ JVal.undef ∧ kv.2 ≠ JVal.null) := by
  rw [CQTag.toTag, CQTag.toTagSt, CQTag.overlay]
  apply List.filter_congr
  intro kv _
  cases kv.2 <;> simp [looseNull]

/-- A token rejected by the tag regex becomes a literal `CQText`. -/
theorem parseToken_of_no_match (tok : Str) (h : matchCQ tok = none) :
    parseToken tok = mkCQText tok := by
  simp [parseToken, h]

/-- A piece with no `=` splits into the empty key and the whole piece. -/
theorem splitEq_of_no_eq (v : Str) (h : '=' ∉ v) : splitEq v = ([], v) := by
  have hnone : v.findIdx? (fun c => decide (c = '=')) = none := by
    rw [List.findIdx?_eq_none_iff]
    intro c hc
    simp only [decide_eq_false_iff_not]
    intro he
    exact h (he ▸ hc)
  simp [splitEq, hnone]

/-! ## Claim theorems -/

/-- C1: for every string `s` not containing the literal sequences `&amp;`,
`&#91;`, `&#93;`, `&#44;`, and for both values of `insideTagValue`,
`unescape(escape(s, insideTagValue)) = s`.  (The proof does not even need
the containment hypotheses: escaping the ampersand first makes the round
trip hold for every string.) -/
theorem C1_escape_unescape_roundtrip (s : Str) (inside : Bool)
    (h1 : containsSub AMP s = false) (h2 : containsSub B91 s = false)
    (h3 : containsSub B93 s = false) (h4 : containsSub B44 s = false) :
    unescape (escape s inside) = s :=
  unescape_escape inside s

/-- C1 witness: the round trip at `",&[x]"` inside a tag value. -/
theorem C1_witness :
    containsSub AMP ",&[x]".toList = false ∧ containsSub B91 ",&[x]".toList = false ∧
    containsSub B93 ",&[x]".toList = false ∧ containsSub B44 ",&[x]".toList = false ∧
    unescape (escape ",&[x]".toList true) = ",&[x]".toList :=
  ⟨by decide, by decide, by decide, by decide,
    C1_escape_unescape_roundtrip ",&[x]".toList true (by decide) (by decide) (by decide)
      (by decide)⟩

/-- C2 counterexample: a `CQText` instance is a Tag Value, and its overridden
`toString` ignores the overlaid entries entirely: with override
`{b: null}` the wire text is just `"a"`, so the null-valued overlaid entry
`b` is *not* emitted, contradicting the claim as stated for every Tag
Value. -/
theorem C2_counterexample :
    ((mkCQText "a".toList).modifier [("b".toList, JVal.null)]).overlay
      = [("text".toList, JVal.str "a".toList), ("b".toList, JVal.null)] ∧
    ((mkCQText "a".toList).modifier [("b".toList, JVal.null)]).toStr = "a".toList ∧
    ((mkCQText "a".toList).modifier [("b".toList, JVal.null)]).toStr
      ≠ "[CQ:text,text=a,b=null]".toList :=
  ⟨by decide, by decide, by decide⟩

/-- C2 (amended): the structured form omits exactly the overlaid entries
whose value is `undefined` or `null`, for every Tag Value; the wire text
emits exactly the non-`undefined` overlaid entries (nulls stringified) for
every Tag Value serialized by the generic path, i.e. every non-`CQText`
instance (`CQText`'s overridden `toString` emits no entries at all). -/
theorem C2_amended (t : CQTag) :
    (t.toTag).data = t.overlay.filter (fun kv => kv.2 ≠ JVal.undef ∧ kv.2 ≠ JVal.null) ∧
    (t.isCQText = false →
      t.toStr = "[CQ:".toList ++ t._type
        ++ (t.overlay.filter (fun kv => kv.2 ≠ JVal.undef)).flatMap
            (fun kv => ',' :: kv.1 ++ '=' :: jvalToStr kv.2)
        ++ "]".toList) :=
  ⟨toTag_data_eq t, fun h => toStr_generic_eq t h⟩

/-- C2 witness: a generic tag with an `undefined` and a `null` attribute:
the wire text keeps `b=null` and drops `a`; the structured form drops
both. -/
theorem C2_witness :
    (mkCQTag "x".toList [("a".toList, JVal.undef), ("b".toList, JVal.null)]).isCQText
      = false ∧
    (mkCQTag "x".toList [("a".toList, JVal.undef), ("b".toList, JVal.null)]).toStr
      = "[CQ:x,b=null]".toList ∧
    ((mkCQTag "x".toList [("a".toList, JVal.undef), ("b".toList, JVal.null)]).toTag).data
      = [] := by
  refine ⟨by decide, ?_, ?_⟩
  · rw [(C2_amended _).2 (by decide)]
    decide
  · rw [(C2_amended _).1]
    decide

/-- C3 counterexample: the Message Parser applied to the empty string does
not produce an empty sequence: ES `split` returns `[""]` on the empty
string, so `parse("")` is a one-element list. -/
theorem C3_counterexample : CQparse ([] : Str) ≠ [] :=
  by decide

/-- C3 (amended): parsing the empty string yields exactly one Tag Value,
a `CQText` with empty text. -/
theorem C3_amended : CQparse ([] : Str) = [mkCQText []] :=
  by decide

/-- C4 counterexample: the well-formed token `"[CQ:text,text=a]"` parses to
a *generic* `CQTag` of type `text` (not a `CQText`), and its wire-text
serialization keeps the `[CQ:...]` wrapper instead of the raw text `"a"`. -/
theorem C4_counterexample :
    CQparse "[CQ:text,text=a]".toList
      = [mkCQTag "text".toList [("text".toList, JVal.str "a".toList)]] ∧
    (mkCQTag "text".toList [("text".toList, JVal.str "a".toList)]).toStr
      = "[CQ:text,text=a]".toList ∧
    (mkCQTag "text".toList [("text".toList, JVal.str "a".toList)]).toStr ≠ "a".toList :=
  ⟨by decide, by decide, by decide⟩

/-- C4 (amended): every Tag Value of the `CQText` class (produced by
`CQ.text` or by the parser for literal runs and non-matching tokens)
serializes to the raw value of its `text` attribute with no wrapper; a
type-`"text"` Tag Value parsed from a well-formed `[CQ:text,...]` token is
a generic `CQTag` and keeps the wrapper. -/
theorem C4_amended (t : CQTag) (s : Str) (h1 : t.isCQText = true)
    (h2 : objGet t._data "text".toList = JVal.str s) : t.toStr = s := by
  rw [CQTag.toStr, if_pos (by simp [h1]), h2]
  rfl

/-- C4 witness: `CQ.text("hi")` serializes to `"hi"`. -/
theorem C4_witness :
    (mkCQText "hi".toList).isCQText = true ∧
    objGet (mkCQText "hi".toList)._data "text".toList = JVal.str "hi".toList ∧
    (mkCQText "hi".toList).toStr = "hi".toList :=
  ⟨by decide, by decide, C4_amended _ _ (by decide) (by decide)⟩

/-- C5 counterexample: in `"a]b"` the `]` closes no well-formed tag token
(`"a]"` fails the tag regex), yet the tokenizer still starts a new token
right after it: the lookbehind `(?<=])` matches after *every* `]`. -/
theorem C5_counterexample :
    tokenize "a]b".toList = ["a]".toList, "b".toList] ∧
    tokenize "a]b".toList ≠ ["a]b".toList] ∧
    matchCQ "a]".toList = none :=
  ⟨by decide, by decide, by decide⟩

/-- C5 (amended): a new token begins immediately before every occurrence of
`[CQ:` and immediately after *every* `]`, whether or not that `]` closes a
well-formed tag token: the tokenizer equals the reference splitter that
cuts exactly at those positions. -/
theorem C5_amended (s : Str) : tokenize s = refTokenize s :=
  tokenize_eq_refTokenize s

/-- C6: the tokens, concatenated in order, are exactly the input string. -/
theorem C6_tokenize_concat (msg : Str) : (tokenize msg).flatten = msg := by
  rw [tokenize, splitGo_flatten]
  rfl

/-- C7 counterexample: a `CQText` instance is a Tag Value whose wire-text
serialization does not iterate the overlaid mapping at all: `CQ.text("a")`
has base `{text: "a"}` but serializes to `"a"`, not to
`"[CQ:text,text=a]"`. -/
theorem C7_counterexample :
    (mkCQText "a".toList).toStr = "a".toList ∧
    (mkCQText "a".toList).toStr ≠ "[CQ:text,text=a]".toList :=
  ⟨by decide, by decide⟩

/-- C7 (amended): for Tag Values serialized by the generic path, the
overlaid mapping enumerates base's keys in insertion order with override
values winning on collisions, followed by the override-only keys in their
insertion order; in particular the face example serializes to
`"[CQ:face,id=2,extra=x]"`. -/
theorem C7_amended (ty : Str) (base mod : Obj) (h1 : nodupKeys base) (h2 : nodupKeys mod) :
    ((mkCQTag ty base).modifier mod).overlay.map Prod.fst
        = base.map Prod.fst ++ (mod.map Prod.fst).filter (fun k => !(hasKey base k)) ∧
    (∀ k, objGet ((mkCQTag ty base).modifier mod).overlay k
        = if hasKey mod k then objGet mod k else objGet base k) ∧
    ((mkCQTag "face".toList [("id".toList, JVal.num 1)]).modifier
        [("id".toList, JVal.num 2), ("extra".toList, JVal.str "x".toList)]).toStr
      = "[CQ:face,id=2,extra=x]".toList := by
  have hover : ((mkCQTag ty base).modifier mod).overlay = objAssign base mod := by
    rw [CQTag.overlay]
    show objAssign (objAssign [] base) mod = objAssign base mod
    rw [objAssign_nil_of_nodup base h1]
  refine ⟨?_, ?_, by decide⟩
  · rw [hover]
    exact keys_objAssign mod base h2
  · intro k
    rw [hover]
    exact objGet_objAssign mod base k h2

/-- C7 witness: the face example, with its key order and override lookup. -/
theorem C7_witness :
    nodupKeys [("id".toList, JVal.num 1)] ∧
    nodupKeys [("id".toList, JVal.num 2), ("extra".toList, JVal.str "x".toList)] ∧
    ((mkCQTag "face".toList [("id".toList, JVal.num 1)]).modifier
        [("id".toList, JVal.num 2), ("extra".toList, JVal.str "x".toList)]).toStr
      = "[CQ:face,id=2,extra=x]".toList := by
  refine ⟨by decide, by decide, ?_⟩
  exact (C7_amended "face".toList [("id".toList, JVal.num 1)]
    [("id".toList, JVal.num 2), ("extra".toList, JVal.str "x".toList)]
    (by decide) (by decide)).2.2

/-- C8: a token the tag regex rejects is never an error: it becomes a
`CQText` of type `"text"` whose `text` attribute is the token unchanged. -/
theorem C8_literal_fallback (tok : Str) (h : matchCQ tok = none) :
    parseToken tok = mkCQText tok ∧
    (parseToken tok)._type = "text".toList ∧
    objGet (parseToken tok)._data "text".toList = JVal.str tok := by
  refine ⟨parseToken_of_no_match tok h, ?_, ?_⟩
  · rw [parseToken_of_no_match tok h]
    rfl
  · rw [parseToken_of_no_match tok h]
    simp [mkCQText, objGet, List.find?]

/-- C8 witness: `"[CQ:bad"` (missing closing bracket). -/
theorem C8_witness :
    matchCQ "[CQ:bad".toList = none ∧
    parseToken "[CQ:bad".toList = mkCQText "[CQ:bad".toList ∧
    objGet (parseToken "[CQ:bad".toList)._data "text".toList
      = JVal.str "[CQ:bad".toList := by
  refine ⟨by decide, ?_, ?_⟩
  · exact (C8_literal_fallback _ (by decide)).1
  · exact (C8_literal_fallback _ (by decide)).2.2

/-- C9: an attribute piece with no `=` is split at index `-1`, producing the
empty-string key and the whole piece as value; e.g. `"[CQ:a,xyz]"` parses
to base `{"": "xyz"}`. -/
theorem C9_keyless_piece (piece : Str) (h : '=' ∉ piece) :
    ((splitEq piece).1, JVal.str (splitEq piece).2) = (([] : Str), JVal.str piece) ∧
    CQparse "[CQ:a,xyz]".toList
      = [mkCQTag "a".toList [(([] : Str), JVal.str "xyz".toList)]] := by
  constructor
  · rw [splitEq_of_no_eq piece h]
  · decide

/-- C9 witness: the `=`-free piece `"xyz"`. -/
theorem C9_witness :
    ('=' ∉ "xyz".toList) ∧
    ((splitEq "xyz".toList).1, JVal.str (splitEq "xyz".toList).2)
      = (([] : Str), JVal.str "xyz".toList) :=
  ⟨by decide, (C9_keyless_piece "xyz".toList (by decide)).1⟩

/-- C10: `toString` and `toTag` leave the receiver (type, base, override)
unchanged — each builds its overlay in a fresh object and `toTag` deletes
only from that copy — so calling either twice without an intervening
`modifier` call yields identical results. -/
theorem C10_frame (t : CQTag) :
    (t.toStringSt).2 = t ∧ (t.toTagSt).2 = t ∧
    ((t.toStringSt).2.toStringSt).1 = (t.toStringSt).1 ∧
    ((t.toTagSt).2.toTagSt).1 = (t.toTagSt).1 :=
  ⟨rfl, rfl, rfl, rfl⟩
